import Mathlib

/-! Shallow embedding of the quickbacktrack crate (src/lib.rs): the puzzle
trait, solver settings, the three solvers (`BackTrackSolver`,
`MultiBackTrackSolver`, `EntropyBackTrackSolver`) and the rank aggregator
`combine`, together with theorems settling the specification's claims.

Conventions used throughout:

* Rust `Vec`s used as stacks (`prevs`, `choice`) are Lean lists with the most
  recent element at the head: `push` is cons, `pop` reads the head.  Candidate
  vectors returned by strategy closures keep the source convention (last
  element = highest priority); they are reversed once at the point where the
  source starts popping them from the end.
* `u64` counters are `Nat`; `f64` weights are `ℚ` (every weight the solver
  ever stores is `1.0` plus a number of exact `+1.0` increments, so rationals
  model them exactly).  The transcendental `f64` Shannon-entropy formula of
  `EntropyBackTrackSolver::entropy` is kept as an abstract scoring parameter,
  see `minEntropy`.
* Every early `return None` site of the source is modelled by an explicit
  outcome tag, so theorems can distinguish budget cutoff from exhaustion of
  the search space; the final internal solver state is returned alongside.
* The unbounded `loop`s of the source are fueled; `outOfFuel` marks a run
  that did not reach any `return` within the given fuel.
-/

/-- First index of `x` in a list (left-to-right scan with early break), as in
the source's inner scan loops over `start_choice` entries. -/
def firstIdx {α : Type} [DecidableEq α] (x : α) : List α → Option Nat
  | [] => none
  | y :: ys => if y = x then some 0 else (firstIdx x ys).map (· + 1)

/-- Rust's `iter().enumerate()`, generalized to start numbering at `n`
(the source always uses `enumF 0`). -/
def enumF {α : Type} : Nat → List α → List (Nat × α)
  | _, [] => []
  | n, y :: ys => (n, y) :: enumF (n + 1) ys

/-- Stable insertion into a list sorted ascending by `key`: the new element
goes before the first strictly greater key, hence after equal keys. -/
def insertByKey {α β : Type} [LinearOrder β] (key : α → β) (x : α) : List α → List α
  | [] => [x]
  | y :: ys => if key y < key x then y :: insertByKey key x ys else x :: y :: ys

/-- Stable sort ascending by `key`.  This models `Vec::sort_by` /
`sort_by_key` (both stable in Rust) for a total comparator — here `usize`
scores resp. exact rational weights, where `partial_cmp(..).unwrap()` is the
total order — since the stable ascending reordering of a list is unique. -/
def sortByKey {α β : Type} [LinearOrder β] (key : α → β) : List α → List α
  | [] => []
  | x :: xs => insertByKey key x (sortByKey key xs)

theorem insertByKey_perm {α β : Type} [LinearOrder β] (key : α → β) (x : α) :
    ∀ l : List α, List.Perm (insertByKey key x l) (x :: l) := by
  intro l
  induction l with
  | nil => simp [insertByKey]
  | cons y ys ih =>
      by_cases h : key y < key x
      · simp only [insertByKey, if_pos h]
        exact List.Perm.trans (List.Perm.cons y ih) (List.Perm.swap x y ys)
      · simp [insertByKey, if_neg h]

theorem sortByKey_perm {α β : Type} [LinearOrder β] (key : α → β) :
    ∀ l : List α, List.Perm (sortByKey key l) l := by
  intro l
  induction l with
  | nil => exact List.Perm.refl _
  | cons x xs ih =>
      exact List.Perm.trans (insertByKey_perm key x (sortByKey key xs)) (List.Perm.cons x ih)

theorem insertByKey_pairwise {α β : Type} [LinearOrder β] (key : α → β) (x : α)
    (l : List α) (h : l.Pairwise (fun a b => key a ≤ key b)) :
    (insertByKey key x l).Pairwise (fun a b => key a ≤ key b) := by
  induction l with
  | nil => simp [insertByKey]
  | cons y ys ih =>
      rcases List.pairwise_cons.mp h with ⟨hy, hys⟩
      by_cases hc : key y < key x
      · simp only [insertByKey, if_pos hc]
        refine List.pairwise_cons.mpr ⟨?_, ih hys⟩
        intro b hb
        have hb' : b ∈ x :: ys := (insertByKey_perm key x ys).mem_iff.mp hb
        rcases List.mem_cons.mp hb' with h1 | h2
        · exact h1 ▸ le_of_lt hc
        · exact hy b h2
      · simp only [insertByKey, if_neg hc]
        refine List.pairwise_cons.mpr ⟨?_, h⟩
        intro b hb
        have hxy : key x ≤ key y := le_of_not_lt hc
        rcases List.mem_cons.mp hb with h1 | h2
        · exact h1 ▸ hxy
        · exact le_trans hxy (hy b h2)

theorem sortByKey_pairwise {α β : Type} [LinearOrder β] (key : α → β) :
    ∀ l : List α, (sortByKey key l).Pairwise (fun a b => key a ≤ key b) := by
  intro l
  induction l with
  | nil => simp [sortByKey]
  | cons x xs ih => exact insertByKey_pairwise key x _ ih

/-- `SolveSettings` of the source.  `debug`, `sleepMs` and `printMillions`
only drive console output and pacing, which have no effect on results. -/
structure SolveSettings where
  solveSimple : Bool
  debug : Bool
  difference : Bool
  sleepMs : Option Nat
  maxIterations : Option Nat
  printMillions : Bool

/-- `SolveSettings::new` defaults. -/
def SolveSettings.new : SolveSettings :=
  ⟨true, false, false, none, none, false⟩

/-- `Solution` of the source. -/
structure Solution (σ : Type) where
  puzzle : σ
  iterations : Nat
  strategy : Option Nat

/-- Dictionary for the `Puzzle` trait.  `solveSimple` returns the trace of
`(pos, value)` assignments the puzzle's forward-chaining pass emits through
its callback from the given state (the callback logs the old value and
applies the assignment — done by `applySimple` below, exactly as the closure
in the source does). -/
structure PuzzleImpl (σ π ν : Type) where
  set : σ → π → ν → σ
  get : σ → π → ν
  solveSimple : σ → List (π × ν)
  isSolved : σ → Bool
  remove : σ → σ → σ

/-- The mutable search data of a backtracking search: current state, undo log
(head = most recent entry; the `Bool` is the simple-move flag) and choice
stack (head = most recent frame; each frame's candidate list keeps the next
value to try at its head). -/
structure BTState (σ π ν : Type) where
  state : σ
  prevs : List (π × ν × Bool)
  choice : List (π × List ν)

/-- The undo while-loop of the source: pop undo entries, restoring the stored
old values, until (and including) the first non-simple entry. -/
def undoOne {σ π ν : Type} (P : PuzzleImpl σ π ν) : σ → List (π × ν × Bool) → σ × List (π × ν × Bool)
  | s, [] => (s, [])
  | s, (p, v, simple) :: rest =>
      let s' := P.set s p v
      if simple then undoOne P s' rest else (s', rest)

/-- Runs the puzzle's `solve_simple` pass, logging every deduced move as a
simple undo entry before applying it (the closure the solvers pass in). -/
def applySimple {σ π ν : Type} (P : PuzzleImpl σ π ν) (s : σ) (prevs : List (π × ν × Bool)) :
    σ × List (π × ν × Bool) :=
  (P.solveSimple s).foldl
    (fun acc pv => (P.set acc.1 pv.1 pv.2, (pv.1, P.get acc.1 pv.1, true) :: acc.2)) (s, prevs)

/-- Result of the inner backtracking loop: `failed` models the `return None`
sites inside it (empty choice stack, or nothing left to undo), `next` models
`break`ing back into the outer loop after a successful `Try`. -/
inductive BTStep (σ π ν : Type) where
  | failed (st : BTState σ π ν)
  | next (st : BTState σ π ν)

/-- The inner backtracking loop shared verbatim by `BackTrackSolver::solve`
and `MultiBackTrackSolver::solve` (the source duplicates the code): pop the
most recent choice frame; on a remaining candidate undo through the last
guess, log and apply the candidate and push the frame back; on an empty
frame undo one level and continue with the older frames. -/
def backtrackLoop {σ π ν : Type} (P : PuzzleImpl σ π ν) :
    σ → List (π × ν × Bool) → List (π × List ν) → BTStep σ π ν
  | s, prevs, [] => .failed ⟨s, prevs, []⟩
  | s, prevs, (pos, cands) :: rest =>
      match cands with
      | newVal :: cands' =>
          let sp := undoOne P s prevs
          let prevs' := (pos, P.get sp.1 pos, false) :: sp.2
          let s' := P.set sp.1 pos newVal
          .next ⟨s', prevs', (pos, cands') :: rest⟩
      | [] =>
          if prevs.isEmpty then .failed ⟨s, prevs, rest⟩
          else
            let sp := undoOne P s prevs
            backtrackLoop P sp.1 sp.2 rest

/-- The `max_iterations` guard (`if let Some(max) = …  if iterations > max`). -/
def exceeded : Option Nat → Nat → Bool
  | some m, iters => iters > m
  | none, _ => false

/-- How a call to `solve` returned: a solution, the two `return None` causes
(budget cutoff at `max_iterations`, resp. exhaustion of the choice stack),
or not enough fuel to reach any `return` of the source's `loop`. -/
inductive Outcome (σ : Type) where
  | solution (sol : Solution σ)
  | budget
  | exhausted
  | outOfFuel

/-- One pass of `BackTrackSolver::solve`'s outer loop at the given (already
incremented) iteration count: optional simple-solving, budget check, solved
check, then guess or backtrack.  `.inl` models the `return` sites (with the
internal state at that moment), `.inr` continues the loop. -/
def stepBT {σ π ν : Type} (P : PuzzleImpl σ π ν) (settings : SolveSettings)
    (f : σ → Option π) (g : σ → π → List ν) (original : σ) (iters : Nat)
    (st : BTState σ π ν) :
    Sum (Outcome σ × BTState σ π ν) (BTState σ π ν) :=
  let sp := if settings.solveSimple then applySimple P st.state st.prevs else (st.state, st.prevs)
  let s := sp.1
  let prevs := sp.2
  if exceeded settings.maxIterations iters then .inl (.budget, ⟨s, prevs, st.choice⟩)
  else if P.isSolved s then
    let s' := if settings.difference then P.remove s original else s
    .inl (.solution ⟨s', iters, none⟩, ⟨s', prevs, st.choice⟩)
  else
    match f s with
    | none =>
        match backtrackLoop P s prevs st.choice with
        | .failed st' => .inl (.exhausted, st')
        | .next st' => .inr st'
    | some x =>
        match (g s x).reverse with
        | [] =>
            match backtrackLoop P s prevs st.choice with
            | .failed st' => .inl (.exhausted, st')
            | .next st' => .inr st'
        | v :: rest =>
            .inr ⟨P.set s x v, (x, P.get s x, false) :: prevs, (x, rest) :: st.choice⟩

/-- The outer loop of `BackTrackSolver::solve`, fueled. -/
def solveLoop {σ π ν : Type} (P : PuzzleImpl σ π ν) (settings : SolveSettings)
    (f : σ → Option π) (g : σ → π → List ν) (original : σ) :
    Nat → Nat → BTState σ π ν → Outcome σ × BTState σ π ν
  | 0, _, st => (.outOfFuel, st)
  | fuel + 1, iters, st =>
      match stepBT P settings f g original (iters + 1) st with
      | .inl r => r
      | .inr st' => solveLoop P settings f g original fuel (iters + 1) st'

/-- `BackTrackSolver` of the source. -/
structure BackTrackSolver (σ π ν : Type) where
  original : σ
  state : σ
  prevs : List (π × ν × Bool)
  choice : List (π × List ν)
  settings : SolveSettings

/-- `BackTrackSolver::new`: snapshot the puzzle as `original`, start from it
with empty undo log and choice stack. -/
def BackTrackSolver.new {σ π ν : Type} (puzzle : σ) (settings : SolveSettings) :
    BackTrackSolver σ π ν :=
  ⟨puzzle, puzzle, [], [], settings⟩

/-- `BackTrackSolver::solve` (fueled); also returns the internal search state
at the moment of the `return`, which the source drops. -/
def BackTrackSolver.solve {σ π ν : Type} (P : PuzzleImpl σ π ν) (slv : BackTrackSolver σ π ν)
    (f : σ → Option π) (g : σ → π → List ν) (fuel : Nat) : Outcome σ × BTState σ π ν :=
  solveLoop P slv.settings f g slv.original fuel 0 ⟨slv.state, slv.prevs, slv.choice⟩

/-- How a call to `MultiBackTrackSolver::solve` returned; `exhausted i`
records which strategy's backtracking hit a `return None` site. -/
inductive MultiOutcome (σ : Type) where
  | solution (sol : Solution σ)
  | budget
  | exhausted (strat : Nat)
  | outOfFuel

/-- The body of `MultiBackTrackSolver::solve`'s `for i in 0..strategies.len()`
loop, advancing every remaining strategy by one step.  The source keeps three
parallel vectors (`states`, `prevs`, `choice`) indexed by strategy; here they
are zipped into one list of `BTState` triples, walked in step with the
strategy list.  `.inl` models the `return` sites (carrying the per-strategy
search states at that moment), `.inr` finishes the pass. -/
def multiPass {σ π ν : Type} (P : PuzzleImpl σ π ν) (settings : SolveSettings) (origin : σ)
    (iters : Nat) :
    Nat → List ((σ → Option π) × (σ → π → List ν)) → List (BTState σ π ν) →
      Sum (MultiOutcome σ × List (BTState σ π ν)) (List (BTState σ π ν))
  | _, [], sts => .inr sts
  | _, _ :: _, [] => .inr []
  | i, fg :: strats, st :: sts =>
      let sp := if settings.solveSimple then applySimple P st.state st.prevs else (st.state, st.prevs)
      let s := sp.1
      let prevs := sp.2
      if P.isSolved s then
        let s' := if settings.difference then P.remove s origin else s
        .inl (.solution ⟨s', iters, some i⟩, ⟨s', prevs, st.choice⟩ :: sts)
      else
        match fg.1 s with
        | none =>
            match backtrackLoop P s prevs st.choice with
            | .failed st' => .inl (.exhausted i, st' :: sts)
            | .next st' =>
                match multiPass P settings origin iters (i + 1) strats sts with
                | .inl r => .inl (r.1, st' :: r.2)
                | .inr sts' => .inr (st' :: sts')
        | some x =>
            match (fg.2 s x).reverse with
            | [] =>
                match backtrackLoop P s prevs st.choice with
                | .failed st' => .inl (.exhausted i, st' :: sts)
                | .next st' =>
                    match multiPass P settings origin iters (i + 1) strats sts with
                    | .inl r => .inl (r.1, st' :: r.2)
                    | .inr sts' => .inr (st' :: sts')
            | v :: rest =>
                let st' : BTState σ π ν :=
                  ⟨P.set s x v, (x, P.get s x, false) :: prevs, (x, rest) :: st.choice⟩
                match multiPass P settings origin iters (i + 1) strats sts with
                | .inl r => .inl (r.1, st' :: r.2)
                | .inr sts' => .inr (st' :: sts')

/-- The outer loop of `MultiBackTrackSolver::solve`: increment the shared
iteration counter, check the shared budget, then run one pass over all
strategies. -/
def multiLoop {σ π ν : Type} (P : PuzzleImpl σ π ν) (settings : SolveSettings) (origin : σ)
    (strats : List ((σ → Option π) × (σ → π → List ν))) :
    Nat → Nat → List (BTState σ π ν) → MultiOutcome σ × List (BTState σ π ν)
  | 0, _, sts => (.outOfFuel, sts)
  | fuel + 1, iters, sts =>
      if exceeded settings.maxIterations (iters + 1) then (.budget, sts)
      else
        match multiPass P settings origin (iters + 1) 0 strats sts with
        | .inl r => r
        | .inr sts' => multiLoop P settings origin strats fuel (iters + 1) sts'

/-- `MultiBackTrackSolver::solve` (constructed via `MultiBackTrackSolver::new
(settings)`, whose vectors start empty and are filled here): clone the puzzle
into one search state per strategy and run the shared loop. -/
def multiSolve {σ π ν : Type} (P : PuzzleImpl σ π ν) (settings : SolveSettings) (puzzle : σ)
    (strats : List ((σ → Option π) × (σ → π → List ν))) (fuel : Nat) :
    MultiOutcome σ × List (BTState σ π ν) :=
  multiLoop P settings puzzle strats fuel 0 (strats.map fun _ => ⟨puzzle, [], []⟩)

/-- One update of the `combine` priority map: on a present key add the index
to the stored score, otherwise insert the index. -/
def updatePrio {α : Type} [DecidableEq α] (prio : α → Option Nat) (ch : α) (i : Nat) :
    α → Option Nat :=
  fun x => if x = ch then some ((prio ch).getD 0 + i) else prio x

/-- The `for (i, ch) in list.iter().enumerate()` loop of `combine`, with the
running index made explicit (`combine` enters at index 0). -/
def addList {α : Type} [DecidableEq α] : (α → Option Nat) → Nat → List α → (α → Option Nat)
  | prio, _, [] => prio
  | prio, n, ch :: rest => addList (updatePrio prio ch n) (n + 1) rest

/-- The fully built priority map of `combine` over all input lists, as a
partial function (the source's `FnvHashMap<T, usize>`). -/
def buildPriority {α : Type} [DecidableEq α] (lists : List (List α)) : α → Option Nat :=
  lists.foldl (fun prio list => addList prio 0 list) (fun _ => none)

/-- `priority[key]` for a key known to the map (indexing a missing key would
panic in the source; `combine` only indexes present keys). -/
def prioVal {α : Type} [DecidableEq α] (lists : List (List α)) (a : α) : Nat :=
  (buildPriority lists a).getD 0

/-- Specification-side score of a value: the sum of its index positions over
every occurrence in every input list (absence contributes nothing). -/
def listScore {α : Type} [DecidableEq α] (a : α) : Nat → List α → Nat
  | _, [] => 0
  | n, x :: rest => (if x = a then n else 0) + listScore a (n + 1) rest

/-- Aggregate score of a value across all input lists. -/
def aggregateScore {α : Type} [DecidableEq α] (lists : List (List α)) (a : α) : Nat :=
  (lists.map (listScore a 0)).sum

/-- `combine`, parameterized by the order `keys` in which the source's
`priority.keys().collect()` happens to enumerate the map: the source sorts
the index vector `0..keys.len()` stably by each key's score and projects,
which is the same list as the stable sort of `keys` by score.  The hash map's
enumeration order is not determined by a shallow embedding, so theorems
quantify over every enumeration `keys` of the map's key set. -/
def combineOn {α : Type} [DecidableEq α] (lists : List (List α)) (keys : List α) : List α :=
  sortByKey (fun a => prioVal lists a) keys

/-- `EntropySolveSettings` of the source (`noise` is an `f64` in `[0,1]`,
modelled exactly as a rational). -/
structure EntropySolveSettings where
  attempts : Nat
  noise : ℚ
  finalAttempt : Option (Option Nat)

/-- `EntropySolveSettings::new` defaults. -/
def EntropySolveSettings.new : EntropySolveSettings :=
  ⟨1, 0, none⟩

/-- `EntropyBackTrackSolver` of the source. -/
structure EntropyBackTrackSolver (σ π ν : Type) where
  original : σ
  state : σ
  prevs : List (π × ν × Bool)
  choice : List (π × List ν)
  startChoice : List (π × List ν)
  weights : List (List ℚ)
  settings : SolveSettings
  entropySettings : EntropySolveSettings

/-- `EntropyBackTrackSolver::new`: one weight accumulator per candidate value
of every `start_choice` entry, each starting at `1.0`. -/
def EntropyBackTrackSolver.new {σ π ν : Type} (puzzle : σ) (startChoice : List (π × List ν))
    (entropySettings : EntropySolveSettings) (settings : SolveSettings) :
    EntropyBackTrackSolver σ π ν :=
  ⟨puzzle, puzzle, [], [], startChoice,
    startChoice.map (fun n => List.replicate n.2.length 1), settings, entropySettings⟩

/-- Adds `1.0` to the `j`-th entry of a weight row (`self.weights[i][j] += 1.0`). -/
def bumpAt : List ℚ → Nat → List ℚ
  | [], _ => []
  | w :: ws, 0 => (w + 1) :: ws
  | w :: ws, j + 1 => w :: bumpAt ws j

/-- `EntropyBackTrackSolver::observe` on the weight table: scan `start_choice`
entries in order; at an entry for `pos`, scan its candidate list; at the
first candidate equal to `new_val` bump the matching weight and return; if
the entry has no matching candidate the outer scan continues. -/
def observeW {π ν : Type} [DecidableEq π] [DecidableEq ν] (pos : π) (newVal : ν) :
    List (π × List ν) → List (List ℚ) → List (List ℚ)
  | [], ws => ws
  | _ :: _, [] => []
  | ch :: sc, w :: ws =>
      if ch.1 = pos then
        match firstIdx newVal ch.2 with
        | some j => bumpAt w j :: ws
        | none => w :: observeW pos newVal sc ws
      else w :: observeW pos newVal sc ws

/-- `EntropyBackTrackSolver::observe` as a method on the solver record. -/
def EntropyBackTrackSolver.observe {σ π ν : Type} [DecidableEq π] [DecidableEq ν]
    (slv : EntropyBackTrackSolver σ π ν) (pos : π) (newVal : ν) :
    EntropyBackTrackSolver σ π ν :=
  { slv with weights := observeW pos newVal slv.startChoice slv.weights }

/-- `EntropyBackTrackSolver::min_entropy`.  The source scores position `i`
with the `f64` Shannon entropy `-Σ p·ln p` of its weight row
(`EntropyBackTrackSolver::entropy`); the transcendental `ln` has no exact
counterpart in this embedding, so the scoring map `entropyFn` is an abstract
parameter and every theorem below holds for an arbitrary scoring map.  The
scan keeps the strictly smallest score, first encountered wins; rows whose
position has no admissible value via `g` are skipped (the dead
`weights.len() == 0` guard of the source is kept). -/
def minEntropy {σ π ν : Type} [Inhabited π] (entropyFn : List ℚ → ℚ) (g : σ → π → List ν)
    (sc : List (π × List ν)) (state : σ) (ws : List (List ℚ)) : Option (Nat × π) :=
  let min := (List.range ws.length).foldl
    (fun min i =>
      if ws.length == 0 then min
      else if (g state (sc.getD i default).1).isEmpty then min
      else
        let e := entropyFn (ws.getD i [])
        match min with
        | none => some (i, e)
        | some m => if m.2 > e then some (i, e) else min)
    none
  min.map (fun m => (m.1, (sc.getD m.1 default).1))

/-- The candidate-reordering snippet of `solve_single_attempt`'s non-noise
branch: pair each admissible value from `g` (enumerated with its index) with
the learned weight of its first occurrence in the selected `start_choice`
entry — values absent from the entry produce no pair — then stable-sort the
pairs ascending by weight and project the indices back into the admissible
list. -/
def projectCandidates {ν : Type} [DecidableEq ν] [Inhabited ν] (startVals : List ν)
    (ws : List ℚ) (possible : List ν) : List ν :=
  let keys := (enumF 0 possible).filterMap
    (fun jp => (firstIdx jp.2 startVals).map (fun i => (jp.1, ws.getD i 0)))
  let sorted := sortByKey (fun k => k.2) keys
  sorted.map (fun k => possible.getD k.1 default)

/-- Result of the entropy solver's inner backtracking loop, threading the
weight table (the `Try` branch calls `observe`). -/
inductive EBStep (σ π ν : Type) where
  | failed (state : σ) (prevs : List (π × ν × Bool)) (ws : List (List ℚ))
      (choice : List (π × List ν))
  | next (state : σ) (prevs : List (π × ν × Bool)) (ws : List (List ℚ))
      (choice : List (π × List ν))

/-- The inner backtracking loop of `solve_single_attempt`: identical to
`backtrackLoop` except that a successful `Try` also observes the applied
`(pos, value)` pair. -/
def ebacktrackLoop {σ π ν : Type} [DecidableEq π] [DecidableEq ν] (P : PuzzleImpl σ π ν)
    (sc : List (π × List ν)) :
    σ → List (π × ν × Bool) → List (List ℚ) → List (π × List ν) → EBStep σ π ν
  | s, prevs, ws, [] => .failed s prevs ws []
  | s, prevs, ws, (pos, cands) :: rest =>
      match cands with
      | newVal :: cands' =>
          let sp := undoOne P s prevs
          let prevs' := (pos, P.get sp.1 pos, false) :: sp.2
          let s' := P.set sp.1 pos newVal
          let ws' := observeW pos newVal sc ws
          .next s' prevs' ws' ((pos, cands') :: rest)
      | [] =>
          if prevs.isEmpty then .failed s prevs ws rest
          else
            let sp := undoOne P s prevs
            ebacktrackLoop P sc sp.1 sp.2 ws rest

/-- The mutable part of the entropy solver during one attempt (the fields of
`self` that `solve_single_attempt` writes; `original`, `start_choice` and the
two settings bundles are read-only there and passed as parameters). -/
structure ECore (σ π ν : Type) where
  state : σ
  prevs : List (π × ν × Bool)
  choice : List (π × List ν)
  weights : List (List ℚ)

/-- One pass of `solve_single_attempt`'s outer loop at the given (already
incremented) iteration count.  Randomness is an explicit oracle: `draws cur`
models the `rng.gen::<f64>()` value of the pass (compared against `noise`)
and `shuffles cur` the shuffle the RNG would produce; `cur` advances by one
whenever the source consumes randomness (exactly the passes with a branch
position).  On a guess or `Try` the applied pair is observed. -/
def eStep {σ π ν : Type} [DecidableEq π] [DecidableEq ν] [Inhabited π] [Inhabited ν]
    (P : PuzzleImpl σ π ν) (entropyFn : List ℚ → ℚ) (draws : Nat → ℚ)
    (shuffles : Nat → List ν → List ν) (settings : SolveSettings)
    (es : EntropySolveSettings) (sc : List (π × List ν)) (original : σ)
    (g : σ → π → List ν) (iters : Nat) (cur : Nat) (c : ECore σ π ν) :
    Sum (Outcome σ × ECore σ π ν × Nat) (ECore σ π ν × Nat) :=
  let sp := if settings.solveSimple then applySimple P c.state c.prevs else (c.state, c.prevs)
  let s := sp.1
  let prevs := sp.2
  if exceeded settings.maxIterations iters then .inl (.budget, ⟨s, prevs, c.choice, c.weights⟩, cur)
  else if P.isSolved s then
    let s' := if settings.difference then P.remove s original else s
    .inl (.solution ⟨s', iters, none⟩, ⟨s', prevs, c.choice, c.weights⟩, cur)
  else
    match minEntropy entropyFn g sc s c.weights with
    | none =>
        match ebacktrackLoop P sc s prevs c.weights c.choice with
        | .failed s' prevs' ws' ch' => .inl (.exhausted, ⟨s', prevs', ch', ws'⟩, cur)
        | .next s' prevs' ws' ch' => .inr (⟨s', prevs', ch', ws'⟩, cur)
    | some ix =>
        let possible := g s ix.2
        let possible :=
          if draws cur < es.noise then shuffles cur possible
          else projectCandidates (sc.getD ix.1 default).2 (c.weights.getD ix.1 []) possible
        match possible.reverse with
        | [] =>
            match ebacktrackLoop P sc s prevs c.weights c.choice with
            | .failed s' prevs' ws' ch' => .inl (.exhausted, ⟨s', prevs', ch', ws'⟩, cur + 1)
            | .next s' prevs' ws' ch' => .inr (⟨s', prevs', ch', ws'⟩, cur + 1)
        | v :: rest =>
            let prevs' := (ix.2, P.get s ix.2, false) :: prevs
            let s' := P.set s ix.2 v
            let ws' := observeW ix.2 v sc c.weights
            .inr (⟨s', prevs', (ix.2, rest) :: c.choice, ws'⟩, cur + 1)

/-- `EntropyBackTrackSolver::solve_single_attempt` (fueled), returning the
outcome, the mutable solver data and the advanced randomness cursor. -/
def solveSingleAttempt {σ π ν : Type} [DecidableEq π] [DecidableEq ν] [Inhabited π] [Inhabited ν]
    (P : PuzzleImpl σ π ν) (entropyFn : List ℚ → ℚ) (draws : Nat → ℚ)
    (shuffles : Nat → List ν → List ν) (settings : SolveSettings)
    (es : EntropySolveSettings) (sc : List (π × List ν)) (original : σ)
    (g : σ → π → List ν) :
    Nat → Nat → Nat → ECore σ π ν → Outcome σ × ECore σ π ν × Nat
  | 0, _, cur, c => (.outOfFuel, c, cur)
  | fuel + 1, iters, cur, c =>
      match eStep P entropyFn draws shuffles settings es sc original g (iters + 1) cur c with
      | .inl r => r
      | .inr cc => solveSingleAttempt P entropyFn draws shuffles settings es sc original g
          fuel (iters + 1) cc.2 cc.1

/-- Record of one `solve_single_attempt` call made by
`EntropyBackTrackSolver::solve`: its result and the `noise` and
`max_iterations` values in force during the call. -/
structure AttemptRec (σ : Type) where
  result : Option (Solution σ)
  noiseUsed : ℚ
  maxUsed : Option Nat

/-- Instrumented result of `EntropyBackTrackSolver::solve`: the returned
attempt counter `i` (`count`) and solution, the per-attempt records of the
learning loop, the solution value after the learning loop, the record of the
final attempt (if one ran) and the solver as it stands after the call. -/
structure EntropyReport (σ π ν : Type) where
  count : Nat
  learning : List (AttemptRec σ)
  afterLoop : Option (Solution σ)
  finalRec : Option (AttemptRec σ)
  solution : Option (Solution σ)
  finalSolver : EntropyBackTrackSolver σ π ν

/-- The solution carried out of an attempt (`None` for both budget cutoff and
exhaustion, as in the source). -/
def outcomeSolution {σ : Type} : Outcome σ → Option (Solution σ)
  | .solution sol => some sol
  | _ => none

/-- The learning loop of `EntropyBackTrackSolver::solve`: while the attempt
counter `i` is below `attempts` and no solution was found, run one attempt.
`k` counts the remaining loop entries (`k = attempts - i` throughout, so the
`i >= attempts` exit is the `k = 0` case).  Returns `none` if an attempt ran
out of fuel. -/
def learnLoop {σ π ν : Type} [DecidableEq π] [DecidableEq ν] [Inhabited π] [Inhabited ν]
    (P : PuzzleImpl σ π ν) (entropyFn : List ℚ → ℚ) (draws : Nat → ℚ)
    (shuffles : Nat → List ν → List ν) (settings : SolveSettings)
    (es : EntropySolveSettings) (sc : List (π × List ν)) (original : σ)
    (g : σ → π → List ν) (fuel : Nat) :
    Nat → Nat → ECore σ π ν → Nat → Option (Solution σ) → List (AttemptRec σ) →
      Option (Nat × Option (Solution σ) × ECore σ π ν × Nat × List (AttemptRec σ))
  | 0, i, c, cur, sol, recs => some (i, sol, c, cur, recs)
  | k + 1, i, c, cur, sol, recs =>
      match sol with
      | some _ => some (i, sol, c, cur, recs)
      | none =>
          let r := solveSingleAttempt P entropyFn draws shuffles settings es sc original g
            fuel 0 cur c
          match r.1 with
          | .outOfFuel => none
          | _ =>
              let res := outcomeSolution r.1
              learnLoop P entropyFn draws shuffles settings es sc original g fuel
                k (i + 1) r.2.1 r.2.2 res (recs ++ [⟨res, es.noise, settings.maxIterations⟩])

/-- `EntropyBackTrackSolver::solve`: the learning loop only runs when
`max_iterations` is set; afterwards, if there is no solution and
`final_attempt` is configured, one more attempt runs with `noise` forced to
`0.0` and `max_iterations` overridden, and the two settings are restored
regardless of its outcome.  Returns `none` when some attempt ran out of
fuel, otherwise the instrumented report. -/
def entropySolve {σ π ν : Type} [DecidableEq π] [DecidableEq ν] [Inhabited π] [Inhabited ν]
    (P : PuzzleImpl σ π ν) (entropyFn : List ℚ → ℚ) (draws : Nat → ℚ)
    (shuffles : Nat → List ν → List ν) (g : σ → π → List ν) (fuel : Nat)
    (slv : EntropyBackTrackSolver σ π ν) : Option (EntropyReport σ π ν) :=
  let core : ECore σ π ν := ⟨slv.state, slv.prevs, slv.choice, slv.weights⟩
  let mk : ECore σ π ν → EntropyBackTrackSolver σ π ν := fun c =>
    ⟨slv.original, c.state, c.prevs, c.choice, slv.startChoice, c.weights,
      slv.settings, slv.entropySettings⟩
  let loopRes :=
    if slv.settings.maxIterations.isSome then
      learnLoop P entropyFn draws shuffles slv.settings slv.entropySettings slv.startChoice
        slv.original g fuel slv.entropySettings.attempts 0 core 0 none []
    else some (0, none, core, 0, [])
  match loopRes with
  | none => none
  | some lr =>
      let i := lr.1
      let sol := lr.2.1
      let c := lr.2.2.1
      let cur := lr.2.2.2.1
      let recs := lr.2.2.2.2
      match sol with
      | some _ => some ⟨i, recs, sol, none, sol, mk c⟩
      | none =>
          match slv.entropySettings.finalAttempt with
          | none => some ⟨i, recs, none, none, none, mk c⟩
          | some nm =>
              let settings' := { slv.settings with maxIterations := nm }
              let es' := { slv.entropySettings with noise := 0 }
              let r := solveSingleAttempt P entropyFn draws shuffles settings' es'
                slv.startChoice slv.original g fuel 0 cur c
              match r.1 with
              | .outOfFuel => none
              | _ =>
                  let res := outcomeSolution r.1
                  some ⟨i, recs, none, some ⟨res, 0, nm⟩, res, mk r.2.1⟩

/-- Pointwise comparison of weight tables (same shape, row by row, entry by
entry). -/
def wle (v w : List (List ℚ)) : Prop :=
  List.Forall₂ (List.Forall₂ (fun a b => a ≤ b)) v w

/-- Concrete puzzle over a single `Unit` position holding a `Nat`: `set`
overwrites the state, solved exactly when the state is `1`, no simple moves. -/
def natPuzzle : PuzzleImpl Nat Unit Nat :=
  ⟨fun _ _ v => v, fun s _ => s, fun _ => [], fun s => s == 1, fun s _ => s⟩

/-- Like `natPuzzle` but never solved. -/
def stuckPuzzle : PuzzleImpl Nat Unit Nat :=
  ⟨fun _ _ v => v, fun s _ => s, fun _ => [], fun _ => false, fun s _ => s⟩

/-- Like `natPuzzle` but always solved. -/
def trivialPuzzle : PuzzleImpl Nat Unit Nat :=
  ⟨fun _ _ v => v, fun s _ => s, fun _ => [], fun _ => true, fun s _ => s⟩

/-- Position-selection strategy: branch on the single position while the
state is still `0`, report no branch point otherwise. -/
def pickAtZero : Nat → Option Unit := fun s => if s == 0 then some () else none

/-- Claim C1 is false on the code: `MultiBackTrackSolver::solve` can fail
although only one strategy exhausted its search while another still has
unexplored choices.  Concretely, on the puzzle solved at state `1`, strategy
0 (sole candidate `5`) exhausts during the second pass and the whole call
returns the exhaustion `None` — yet strategy 1's choice stack still holds
its untried candidate `1`, which would solve the puzzle. -/
theorem c1_counterexample :
    (multiSolve natPuzzle SolveSettings.new 0
        [(pickAtZero, fun _ _ => [5]), (pickAtZero, fun _ _ => [1, 2])] 10).1 =
      MultiOutcome.exhausted 0 ∧
    ((multiSolve natPuzzle SolveSettings.new 0
        [(pickAtZero, fun _ _ => [5]), (pickAtZero, fun _ _ => [1, 2])] 10).2.getD 1
        ⟨0, [], []⟩).choice = [((), [1])] :=
  ⟨rfl, rfl⟩

/-- Claim C1 (amended): `MultiBackTrackSolver::solve` fails when the shared
iteration counter exceeds `max_iterations`, or as soon as any single
strategy exhausts its own search space — even if another strategy still has
unexplored choices that lead to a solution.  Demonstrated here: the multi
solver returns the exhaustion `None` triggered by strategy 0, while running
strategy 1 alone on the same puzzle finds the solution `1`. -/
theorem c1_amended_multi_fails_on_first_exhaustion :
    (multiSolve natPuzzle SolveSettings.new 0
        [(pickAtZero, fun _ _ => [5]), (pickAtZero, fun _ _ => [1, 2])] 10).1 =
      MultiOutcome.exhausted 0 ∧
    (BackTrackSolver.solve natPuzzle (BackTrackSolver.new 0 SolveSettings.new)
        pickAtZero (fun _ _ => [1, 2]) 10).1 =
      Outcome.solution ⟨1, 3, none⟩ :=
  ⟨rfl, rfl⟩

/-- Claim C2 is false on the code: when `BackTrackSolver::solve` returns
`None` because the iteration budget is exceeded, the solver state can differ
from the original puzzle.  Concretely, with `max_iterations = 1` the solver
guesses `7` in the first pass and the budget cutoff in the second pass
returns `None` with state `7`, while the original puzzle is `0`. -/
theorem c2_counterexample_budget_leaves_state :
    (BackTrackSolver.solve stuckPuzzle
        (BackTrackSolver.new 0 { SolveSettings.new with maxIterations := some 1 })
        pickAtZero (fun _ _ => [7]) 10) =
      (Outcome.budget, ⟨7, [((), 0, false)], [((), [])]⟩) ∧
    (7 : Nat) ≠ 0 :=
  ⟨rfl, by decide⟩

/-- Claim C3: in `BackTrackSolver::solve` the iteration counter is
incremented each pass and checked against `max_iterations` before the
solved check, so with `max_iterations = 0` every call returns `None`
(budget) on its very first pass — for every puzzle, strategies and settings,
including puzzles whose `is_solved()` already holds. -/
theorem c3_max_iterations_zero_returns_none {σ π ν : Type} (P : PuzzleImpl σ π ν)
    (settings : SolveSettings) (puzzle : σ) (f : σ → Option π) (g : σ → π → List ν)
    (fuel : Nat) (hmax : settings.maxIterations = some 0) (hfuel : 1 ≤ fuel) :
    (BackTrackSolver.solve P (BackTrackSolver.new puzzle settings) f g fuel).1 =
      Outcome.budget := by
  cases fuel with
  | zero => exact absurd hfuel (by decide)
  | succ k =>
      simp [BackTrackSolver.solve, BackTrackSolver.new, solveLoop, stepBT, exceeded, hmax]

/-- Witness for C3 at a concrete input: the always-solved puzzle with
`max_iterations = 0` still returns the budget `None`. -/
theorem c3_witness :
    ({ SolveSettings.new with maxIterations := some 0 } : SolveSettings).maxIterations =
        some 0 ∧
    1 ≤ 1 ∧
    (BackTrackSolver.solve trivialPuzzle
        (BackTrackSolver.new 0 { SolveSettings.new with maxIterations := some 0 })
        pickAtZero (fun _ _ => [1]) 1).1 = Outcome.budget :=
  ⟨rfl, le_refl 1,
    c3_max_iterations_zero_returns_none trivialPuzzle _ 0 pickAtZero (fun _ _ => [1]) 1
      rfl (le_refl 1)⟩

/-- Replaying the whole undo log (most recent entry first), restoring each
stored old value. -/
def undoAll {σ π ν : Type} (P : PuzzleImpl σ π ν) : List (π × ν × Bool) → σ → σ
  | [], s => s
  | (p, v, _) :: rest, s => undoAll P rest (P.set s p v)

/-- Search-state invariant of `BackTrackSolver::solve` runs with simple
solving disabled: replaying the undo log restores the original puzzle, there
is exactly one undo entry per choice frame, and every undo entry is a guess
entry. -/
def restoresInv {σ π ν : Type} (P : PuzzleImpl σ π ν) (original : σ)
    (st : BTState σ π ν) : Prop :=
  undoAll P st.prevs st.state = original ∧
  st.prevs.length = st.choice.length ∧
  ∀ e ∈ st.prevs, e.2.2 = false

/-- The inner backtracking loop preserves the restoration invariant, and on
its `return None` sites the state has been fully unwound to the original.
`hlaw` is the puzzle contract that re-setting a position to the value read
before an overwrite undoes the overwrite. -/
theorem backtrackLoop_restores {σ π ν : Type} (P : PuzzleImpl σ π ν) (original : σ)
    (hlaw : ∀ s p v, P.set (P.set s p v) p (P.get s p) = s) :
    ∀ (choice : List (π × List ν)) (s : σ) (prevs : List (π × ν × Bool)),
      restoresInv P original ⟨s, prevs, choice⟩ →
      (match backtrackLoop P s prevs choice with
       | .failed st => st.state = original
       | .next st => restoresInv P original st) := by
  intro choice
  induction choice with
  | nil =>
      intro s prevs hinv
      obtain ⟨hundo, hlen, _⟩ := hinv
      have hnil : prevs = [] := List.length_eq_zero.mp (by simpa using hlen)
      subst hnil
      simpa [backtrackLoop, undoAll] using hundo
  | cons frame rest ih =>
      intro s prevs hinv
      obtain ⟨hundo, hlen, hflags⟩ := hinv
      obtain ⟨pos, cands⟩ := frame
      cases prevs with
      | nil => simp at hlen
      | cons e pr =>
          obtain ⟨p0, v0, fl⟩ := e
          have hfl : fl = false := hflags (p0, v0, fl) (List.mem_cons_self _ _)
          subst hfl
          have hundo' : undoAll P pr (P.set s p0 v0) = original := hundo
          have hlen' : pr.length = rest.length := by simpa using hlen
          have hflags' : ∀ e ∈ pr, e.2.2 = false := fun e he =>
            hflags e (List.mem_cons_of_mem _ he)
          cases cands with
          | cons newVal cands' =>
              simp only [backtrackLoop, undoOne, if_neg Bool.false_ne_true]
              refine ⟨?_, by simpa using hlen, ?_⟩
              · show undoAll P _ _ = original
                simp only [undoAll, hlaw]
                exact hundo'
              · intro e he
                rcases List.mem_cons.mp he with h1 | h2
                · simp [h1]
                · exact hflags' e h2
          | nil =>
              have hne : ((p0, v0, false) :: pr).isEmpty = false := rfl
              simp only [backtrackLoop, hne, Bool.false_eq_true, if_false, undoOne,
                if_neg Bool.false_ne_true]
              exact ih (P.set s p0 v0) pr ⟨hundo', hlen', hflags'⟩

/-- One outer-loop pass of `BackTrackSolver::solve` with simple solving
disabled preserves the restoration invariant, and whenever it `return`s the
exhaustion `None` the state has been unwound to the original. -/
theorem stepBT_restores {σ π ν : Type} (P : PuzzleImpl σ π ν) (settings : SolveSettings)
    (f : σ → Option π) (g : σ → π → List ν) (original : σ) (iters : Nat)
    (hss : settings.solveSimple = false)
    (hlaw : ∀ s p v, P.set (P.set s p v) p (P.get s p) = s)
    (st : BTState σ π ν) (hinv : restoresInv P original st) :
    (match stepBT P settings f g original iters st with
     | .inl r => r.1 = Outcome.exhausted → r.2.state = original
     | .inr st' => restoresInv P original st') := by
  obtain ⟨hundo, hlen, hflags⟩ := hinv
  unfold stepBT
  rw [hss]
  simp only [Bool.false_eq_true, if_false]
  cases hex : exceeded settings.maxIterations iters with
  | true => simp [hex]
  | false =>
      simp only [hex, Bool.false_eq_true, if_false]
      cases hsolved : P.isSolved st.state with
      | true => simp [hsolved]
      | false =>
          simp only [hsolved, Bool.false_eq_true, if_false]
          have hbt := backtrackLoop_restores P original hlaw st.choice st.state st.prevs
            ⟨hundo, hlen, hflags⟩
          have hguess : ∀ (x : π) (v : ν) (rest : List ν),
              restoresInv P original
                ⟨P.set st.state x v, (x, P.get st.state x, false) :: st.prevs,
                  (x, rest) :: st.choice⟩ := by
            intro x v rest
            refine ⟨?_, by simpa using hlen, ?_⟩
            · show undoAll P _ _ = original
              simp only [undoAll, hlaw]
              exact hundo
            · intro e he
              rcases List.mem_cons.mp he with h1 | h2
              · simp [h1]
              · exact hflags e h2
          cases hf : f st.state with
          | none =>
              simp only
              cases hres : backtrackLoop P st.state st.prevs st.choice with
              | failed st' =>
                  simp only
                  intro _
                  rw [hres] at hbt
                  exact hbt
              | next st' =>
                  simp only
                  rw [hres] at hbt
                  exact hbt
          | some x =>
              simp only
              cases hrev : (g st.state x).reverse with
              | nil =>
                  simp only
                  cases hres : backtrackLoop P st.state st.prevs st.choice with
                  | failed st' =>
                      simp only
                      intro _
                      rw [hres] at hbt
                      exact hbt
                  | next st' =>
                      simp only
                      rw [hres] at hbt
                      exact hbt
              | cons v rest =>
                  simp only
                  exact hguess x v rest

/-- The outer loop of `BackTrackSolver::solve` with simple solving disabled:
from any state satisfying the restoration invariant, an exhaustion `None`
leaves the state equal to the original. -/
theorem solveLoop_restores {σ π ν : Type} (P : PuzzleImpl σ π ν) (settings : SolveSettings)
    (f : σ → Option π) (g : σ → π → List ν) (original : σ)
    (hss : settings.solveSimple = false)
    (hlaw : ∀ s p v, P.set (P.set s p v) p (P.get s p) = s) :
    ∀ (fuel iters : Nat) (st : BTState σ π ν), restoresInv P original st →
      ∀ fin, solveLoop P settings f g original fuel iters st = (Outcome.exhausted, fin) →
        fin.state = original := by
  intro fuel
  induction fuel with
  | zero =>
      intro iters st _ fin h
      exact absurd (congrArg Prod.fst h) (by simp [solveLoop])
  | succ k ih =>
      intro iters st hinv fin h
      have hstep := stepBT_restores P settings f g original (iters + 1) hss hlaw st hinv
      rw [solveLoop] at h
      cases hres : stepBT P settings f g original (iters + 1) st with
      | inl r =>
          rw [hres] at h hstep
          simp only at h hstep
          rw [h] at hstep
          exact hstep rfl
      | inr st' =>
          rw [hres] at h hstep
          simp only at h hstep
          exact ih (iters + 1) st' hstep fin h

/-- Claim C2 (amended): when `BackTrackSolver::solve` returns `None` by
exhausting every choice frame, and no simple-move undo entries can be
pending (here: `solve_simple` disabled in the settings), the solver state at
that moment is structurally equal to the original puzzle captured at
construction — given the puzzle contract that re-setting a position to the
previously read value undoes a `set`.  A `None` from the iteration budget
can instead leave the state mid-search (see the counterexample), as can
pending simple deductions made before the first guess. -/
theorem c2_amended_exhaustion_restores_state {σ π ν : Type} (P : PuzzleImpl σ π ν)
    (settings : SolveSettings) (puzzle : σ) (f : σ → Option π) (g : σ → π → List ν)
    (fuel : Nat) (fin : BTState σ π ν)
    (hss : settings.solveSimple = false)
    (hlaw : ∀ s p v, P.set (P.set s p v) p (P.get s p) = s)
    (h : BackTrackSolver.solve P (BackTrackSolver.new puzzle settings) f g fuel =
      (Outcome.exhausted, fin)) :
    fin.state = puzzle := by
  refine solveLoop_restores P settings f g puzzle hss hlaw fuel 0 ⟨puzzle, [], []⟩ ?_ fin h
  exact ⟨rfl, rfl, by intro e he; cases he⟩

/-- Witness for the amended C2 at a concrete input: with simple solving
disabled, an exhausting run (guess `1`, backtrack, give up) returns the
exhaustion `None` with the state restored to the original `0`. -/
theorem c2_witness :
    ({ SolveSettings.new with solveSimple := false } : SolveSettings).solveSimple = false ∧
    (BackTrackSolver.solve stuckPuzzle
        (BackTrackSolver.new 0 { SolveSettings.new with solveSimple := false })
        pickAtZero (fun _ _ => [1]) 10) =
      (Outcome.exhausted, ⟨0, [], []⟩) ∧
    (⟨0, [], []⟩ : BTState Nat Unit Nat).state = 0 :=
  ⟨rfl, rfl,
    c2_amended_exhaustion_restores_state stuckPuzzle
      { SolveSettings.new with solveSimple := false } 0 pickAtZero (fun _ _ => [1]) 10
      ⟨0, [], []⟩ rfl (fun _ _ _ => rfl) rfl⟩

theorem listScore_of_not_mem {α : Type} [DecidableEq α] (a : α) :
    ∀ (l : List α) (n : Nat), a ∉ l → listScore a n l = 0 := by
  intro l
  induction l with
  | nil => intro n _; rfl
  | cons x xs ih =>
      intro n h
      have hx : x ≠ a := fun hxa => h (hxa ▸ List.mem_cons_self _ _)
      have hxs : a ∉ xs := fun hmem => h (List.mem_cons_of_mem _ hmem)
      simp [listScore, hx, ih (n + 1) hxs]

theorem sum_listScore_of_not_mem_join {α : Type} [DecidableEq α] (a : α) :
    ∀ (ls : List (List α)), a ∉ ls.flatten → ((ls.map (listScore a 0)).sum = 0) := by
  intro ls
  induction ls with
  | nil => intro _; rfl
  | cons l ls ih =>
      intro h
      rw [List.flatten_cons] at h
      have h1 : a ∉ l := fun hm => h (List.mem_append.mpr (Or.inl hm))
      have h2 : a ∉ ls.flatten := fun hm => h (List.mem_append.mpr (Or.inr hm))
      simp [listScore_of_not_mem a l 0 h1, ih h2]

/-- Characterization of one `combine` inner loop: afterwards a value maps to
its previous score (default `0`) plus the sum of its index positions in the
processed list; values absent from the list keep their previous entry. -/
theorem addList_spec {α : Type} [DecidableEq α] :
    ∀ (l : List α) (prio : α → Option Nat) (n : Nat) (a : α),
      addList prio n l a =
        if a ∈ l then some ((prio a).getD 0 + listScore a n l) else prio a := by
  intro l
  induction l with
  | nil => intro prio n a; simp [addList]
  | cons ch rest ih =>
      intro prio n a
      rw [addList, ih]
      by_cases hch : a = ch
      · subst hch
        by_cases hrest : a ∈ rest
        · simp [hrest, updatePrio, listScore, Nat.add_assoc]
        · simp [hrest, updatePrio, listScore, listScore_of_not_mem a rest (n + 1) hrest]
      · have hne : ch ≠ a := fun h => hch h.symm
        by_cases hrest : a ∈ rest
        · simp [hrest, hch, hne, updatePrio, listScore]
        · simp [hrest, hch, hne, updatePrio, listScore]

/-- Characterization of the fully built `combine` priority map: a value
occurring anywhere maps to its aggregate score; any other value is absent. -/
theorem buildPriority_spec {α : Type} [DecidableEq α] (lists : List (List α)) (a : α) :
    buildPriority lists a =
      if a ∈ lists.flatten then some (aggregateScore lists a) else none := by
  suffices h : ∀ (ls : List (List α)) (prio : α → Option Nat),
      (ls.foldl (fun pr l => addList pr 0 l) prio) a =
        if a ∈ ls.flatten then some ((prio a).getD 0 + (ls.map (listScore a 0)).sum)
        else prio a by
    have := h lists (fun _ => none)
    simpa [buildPriority, aggregateScore] using this
  intro ls
  induction ls with
  | nil => intro prio; simp
  | cons l ls ih =>
      intro prio
      rw [List.foldl_cons, ih, addList_spec, List.flatten_cons]
      by_cases hl : a ∈ l
      · by_cases hls : a ∈ ls.flatten
        · simp [hl, hls, Nat.add_assoc]
        · simp [hl, hls, sum_listScore_of_not_mem_join a ls hls]
      · by_cases hls : a ∈ ls.flatten
        · simp [hl, hls, listScore_of_not_mem a l 0 hl]
        · simp [hl, hls]

theorem pairwise_imp_of_mem {α : Type} {R S : α → α → Prop} :
    ∀ {l : List α}, (∀ a ∈ l, ∀ b ∈ l, R a b → S a b) → l.Pairwise R → l.Pairwise S := by
  intro l
  induction l with
  | nil => intro _ _; exact List.Pairwise.nil
  | cons x xs ih =>
      intro h hp
      rcases List.pairwise_cons.mp hp with ⟨hx, hxs⟩
      refine List.pairwise_cons.mpr ⟨?_, ih ?_ hxs⟩
      · intro b hb
        exact h x (List.mem_cons_self _ _) b (List.mem_cons_of_mem _ hb) (hx b hb)
      · intro a ha b hb hr
        exact h a (List.mem_cons_of_mem _ ha) b (List.mem_cons_of_mem _ hb) hr

/-- Claim C6: for any enumeration `keys` of the distinct values occurring in
the input lists (the hash map's key set, in whatever order it is iterated),
`combine` returns each distinct value exactly once, sorted ascending by
aggregate score, where the priority map stores for every occurring value
exactly the sum of its index positions over every input list in which it
appears (absence contributing nothing). -/
theorem c6_combine_borda {α : Type} [DecidableEq α] (lists : List (List α)) (keys : List α)
    (hnd : keys.Nodup) (hmem : ∀ a, a ∈ keys ↔ a ∈ lists.flatten) :
    (combineOn lists keys).Nodup ∧
    (∀ a, a ∈ combineOn lists keys ↔ a ∈ lists.flatten) ∧
    (combineOn lists keys).Pairwise
      (fun x y => aggregateScore lists x ≤ aggregateScore lists y) ∧
    (∀ a ∈ combineOn lists keys, buildPriority lists a = some (aggregateScore lists a)) := by
  have hperm : List.Perm (combineOn lists keys) keys :=
    sortByKey_perm (fun a => prioVal lists a) keys
  have hscore : ∀ a ∈ combineOn lists keys,
      buildPriority lists a = some (aggregateScore lists a) := by
    intro a ha
    have hj : a ∈ lists.flatten := (hmem a).mp (hperm.mem_iff.mp ha)
    rw [buildPriority_spec, if_pos hj]
  refine ⟨hperm.nodup_iff.mpr hnd, ?_, ?_, hscore⟩
  · intro a
    rw [hperm.mem_iff]
    exact hmem a
  · have hpw := sortByKey_pairwise (fun a => prioVal lists a) keys
    refine pairwise_imp_of_mem ?_ hpw
    intro a ha b hb hle
    have hva : prioVal lists a = aggregateScore lists a := by
      simp [prioVal, hscore a ha]
    have hvb : prioVal lists b = aggregateScore lists b := by
      simp [prioVal, hscore b hb]
    rwa [hva, hvb] at hle

/-- Witness for C6 at a concrete input: lists `[[1,2],[1,2]]` (value `2`
preferred by both, score `2`; value `1` score `0`) with the key enumeration
`[2,1]`; the merged list is `[1,2]`. -/
theorem c6_witness :
    ([2, 1] : List ℕ).Nodup ∧
    (∀ a : ℕ, a ∈ [2, 1] ↔ a ∈ [[1, 2], [1, 2]].flatten) ∧
    ((combineOn [[1, 2], [1, 2]] [2, 1]).Nodup ∧
      (∀ a, a ∈ combineOn [[1, 2], [1, 2]] [2, 1] ↔ a ∈ [[1, 2], [1, 2]].flatten) ∧
      (combineOn [[1, 2], [1, 2]] [2, 1]).Pairwise
        (fun x y => aggregateScore [[1, 2], [1, 2]] x ≤ aggregateScore [[1, 2], [1, 2]] y) ∧
      (∀ a ∈ combineOn [[1, 2], [1, 2]] [2, 1],
        buildPriority [[1, 2], [1, 2]] a = some (aggregateScore [[1, 2], [1, 2]] a))) :=
  ⟨by decide, by intro a; simp [List.flatten]; tauto,
    c6_combine_borda [[1, 2], [1, 2]] [2, 1] (by decide)
      (by intro a; simp [List.flatten]; tauto)⟩

theorem firstIdx_some_mem {α : Type} [DecidableEq α] (x : α) :
    ∀ (l : List α) (i : Nat), firstIdx x l = some i → x ∈ l := by
  intro l
  induction l with
  | nil => intro i h; cases h
  | cons y ys ih =>
      intro i h
      by_cases hxy : y = x
      · exact hxy ▸ List.mem_cons_self _ _
      · rw [firstIdx, if_neg hxy] at h
        cases hfi : firstIdx x ys with
        | none => rw [hfi] at h; cases h
        | some j => exact List.mem_cons_of_mem _ (ih j hfi)

theorem firstIdx_none_not_mem {α : Type} [DecidableEq α] (x : α) :
    ∀ l : List α, firstIdx x l = none → x ∉ l := by
  intro l
  induction l with
  | nil => intro _ h; cases h
  | cons y ys ih =>
      intro h hmem
      by_cases hxy : y = x
      · rw [firstIdx, if_pos hxy] at h; cases h
      · rw [firstIdx, if_neg hxy] at h
        cases hfi : firstIdx x ys with
        | some j => rw [hfi] at h; cases h
        | none =>
            rcases List.mem_cons.mp hmem with h1 | h2
            · exact hxy h1.symm
            · exact ih hfi h2

theorem getD_of_get? {α : Type} (d : α) :
    ∀ (l : List α) (n : Nat) (a : α), l.get? n = some a → l.getD n d = a := by
  intro l
  induction l with
  | nil => intro n a h; cases h
  | cons x xs ih =>
      intro n a h
      cases n with
      | zero =>
          simp only [List.get?] at h
          cases h
          rfl
      | succ k =>
          simp only [List.get?] at h
          simpa [List.getD] using ih k a h

theorem enumF_mem_spec {α : Type} :
    ∀ (l : List α) (n j : Nat) (a : α), (j, a) ∈ enumF n l →
      n ≤ j ∧ l.get? (j - n) = some a := by
  intro l
  induction l with
  | nil => intro n j a h; cases h
  | cons y ys ih =>
      intro n j a h
      rw [enumF] at h
      rcases List.mem_cons.mp h with h1 | h2
      · have hj : j = n := congrArg Prod.fst h1
        have ha : a = y := congrArg Prod.snd h1
        subst hj; subst ha
        simp
      · obtain ⟨hle, hget⟩ := ih (n + 1) j a h2
        refine ⟨by omega, ?_⟩
        have hjn : j - n = (j - (n + 1)) + 1 := by omega
        rw [hjn]
        simpa using hget

/-- The learned weight the non-noise branch associates to an admissible
value: the weight of its first occurrence in the selected entry's candidate
list (irrelevant fallback `0` for values outside the entry, which the branch
drops). -/
def weightOf {ν : Type} [DecidableEq ν] (startVals : List ν) (ws : List ℚ) (v : ν) : ℚ :=
  match firstIdx v startVals with
  | some i => ws.getD i 0
  | none => 0

theorem projectCandidates_map_filter {ν : Type} [DecidableEq ν] [Inhabited ν]
    (startVals : List ν) (ws : List ℚ) (possible : List ν) :
    ∀ (l : List ν) (n : Nat),
      (∀ jp ∈ enumF n l, possible.get? jp.1 = some jp.2) →
      ((enumF n l).filterMap
          (fun jp => (firstIdx jp.2 startVals).map (fun i => (jp.1, ws.getD i 0)))).map
        (fun k => possible.getD k.1 default) =
      l.filter (fun p => decide (p ∈ startVals)) := by
  intro l
  induction l with
  | nil => intro n _; rfl
  | cons p ps ih =>
      intro n h
      have hp : possible.get? n = some p := h (n, p) (by rw [enumF]; exact List.mem_cons_self _ _)
      have hps : ∀ jp ∈ enumF (n + 1) ps, possible.get? jp.1 = some jp.2 := by
        intro jp hjp
        exact h jp (by rw [enumF]; exact List.mem_cons_of_mem _ hjp)
      cases hfi : firstIdx p startVals with
      | none =>
          have hnm : p ∉ startVals := firstIdx_none_not_mem p startVals hfi
          have hcond : (decide (p ∈ startVals)) = false := by simpa using hnm
          rw [enumF, List.filterMap_cons]
          simp only [hfi, Option.map_none']
          rw [List.filter_cons, hcond]
          simp only [Bool.false_eq_true, if_false]
          exact ih (n + 1) hps
      | some i =>
          have hm : p ∈ startVals := firstIdx_some_mem p startVals i hfi
          have hcond : (decide (p ∈ startVals)) = true := by simpa using hm
          rw [enumF, List.filterMap_cons]
          simp only [hfi, Option.map_some']
          rw [List.filter_cons, hcond]
          simp only [if_true]
          rw [List.map_cons, getD_of_get? default possible n p hp, ih (n + 1) hps]

/-- Claim C10: in the non-noise branch of `solve_single_attempt`, the
candidate list actually used is the weight-sorted projection of `g`'s output
restricted to the values that also occur in the selected `start_choice`
entry's candidate list: the result is a permutation of exactly that
restriction (so values absent from the entry are silently dropped and never
tried in that step) and is ordered ascending by learned weight. -/
theorem c10_candidate_projection {ν : Type} [DecidableEq ν] [Inhabited ν]
    (startVals : List ν) (ws : List ℚ) (possible : List ν) :
    List.Perm (projectCandidates startVals ws possible)
      (possible.filter (fun p => decide (p ∈ startVals))) ∧
    (projectCandidates startVals ws possible).Pairwise
      (fun a b => weightOf startVals ws a ≤ weightOf startVals ws b) := by
  have h0 : ∀ jp ∈ enumF 0 possible, possible.get? jp.1 = some jp.2 := by
    intro jp hjp
    have := enumF_mem_spec possible 0 jp.1 jp.2 (by simpa using hjp)
    simpa using this.2
  have hkeyinv : ∀ k ∈ sortByKey (fun k => k.2)
      ((enumF 0 possible).filterMap
        (fun jp => (firstIdx jp.2 startVals).map (fun i => (jp.1, ws.getD i 0)))),
      weightOf startVals ws (possible.getD k.1 default) = k.2 := by
    intro k hk
    have hk' : k ∈ (enumF 0 possible).filterMap
        (fun jp => (firstIdx jp.2 startVals).map (fun i => (jp.1, ws.getD i 0))) :=
      (sortByKey_perm _ _).mem_iff.mp hk
    rcases List.mem_filterMap.mp hk' with ⟨jp, hjp, hfk⟩
    cases hfi : firstIdx jp.2 startVals with
    | none => rw [hfi] at hfk; cases hfk
    | some i =>
        rw [hfi] at hfk
        simp only [Option.map_some'] at hfk
        injection hfk with hfk'
        subst hfk'
        have hget : possible.get? jp.1 = some jp.2 := h0 jp hjp
        have hgd : possible.getD jp.1 default = jp.2 :=
          getD_of_get? default possible jp.1 jp.2 hget
        show weightOf startVals ws (possible.getD jp.1 default) = (jp.1, ws.getD i 0).2
        rw [hgd]
        simp [weightOf, hfi]
  constructor
  · have hmap := projectCandidates_map_filter startVals ws possible possible 0 h0
    show List.Perm (List.map _ (sortByKey _ _)) _
    rw [← hmap]
    exact List.Perm.map _ (sortByKey_perm _ _)
  · show List.Pairwise _ (List.map _ (sortByKey _ _))
    rw [List.pairwise_map]
    refine pairwise_imp_of_mem ?_ (sortByKey_pairwise (fun k => k.2) _)
    intro a ha b hb hle
    rw [hkeyinv a ha, hkeyinv b hb]
    exact hle

theorem learnLoop_of_some {σ π ν : Type} [DecidableEq π] [DecidableEq ν] [Inhabited π]
    [Inhabited ν] (P : PuzzleImpl σ π ν) (entropyFn : List ℚ → ℚ) (draws : Nat → ℚ)
    (shuffles : Nat → List ν → List ν) (settings : SolveSettings)
    (es : EntropySolveSettings) (sc : List (π × List ν)) (original : σ)
    (g : σ → π → List ν) (fuel : Nat) (k i : Nat) (c : ECore σ π ν) (cur : Nat)
    (s : Solution σ) (recs : List (AttemptRec σ)) :
    learnLoop P entropyFn draws shuffles settings es sc original g fuel k i c cur
      (some s) recs = some (i, some s, c, cur, recs) := by
  cases k <;> rfl

theorem mem_dropLast_cons {α : Type} (a x : α) (l : List α) :
    a ∈ (x :: l).dropLast → a = x ∨ a ∈ l.dropLast := by
  cases l with
  | nil => intro h; cases h
  | cons y ys =>
      intro h
      rw [List.dropLast_cons₂] at h
      exact List.mem_cons.mp h

/-- Structure of the learning loop of `EntropyBackTrackSolver::solve`
entered with no solution yet: it appends at most `k` attempt records, every
record before the last one records a failed attempt (the loop stops at the
first success), and the returned counter advances by the number of attempts
performed. -/
theorem learnLoop_spec {σ π ν : Type} [DecidableEq π] [DecidableEq ν] [Inhabited π]
    [Inhabited ν] (P : PuzzleImpl σ π ν) (entropyFn : List ℚ → ℚ) (draws : Nat → ℚ)
    (shuffles : Nat → List ν → List ν) (settings : SolveSettings)
    (es : EntropySolveSettings) (sc : List (π × List ν)) (original : σ)
    (g : σ → π → List ν) (fuel : Nat) :
    ∀ (k i : Nat) (c : ECore σ π ν) (cur : Nat) (recs : List (AttemptRec σ))
      (out : Nat × Option (Solution σ) × ECore σ π ν × Nat × List (AttemptRec σ)),
      learnLoop P entropyFn draws shuffles settings es sc original g fuel k i c cur
        none recs = some out →
      ∃ new, out.2.2.2.2 = recs ++ new ∧ out.1 = i + new.length ∧ new.length ≤ k ∧
        (∀ rec ∈ new.dropLast, rec.result = none) := by
  intro k
  induction k with
  | zero =>
      intro i c cur recs out h
      rw [learnLoop] at h
      injection h with h
      subst h
      exact ⟨[], by simp, by simp, by simp, by intro rec hrec; cases hrec⟩
  | succ k ih =>
      intro i c cur recs out h
      rw [learnLoop] at h
      cases hr : (solveSingleAttempt P entropyFn draws shuffles settings es sc original g
          fuel 0 cur c).1 with
      | outOfFuel =>
          rw [hr] at h
          cases h
      | solution sol' =>
          rw [hr] at h
          simp only [outcomeSolution] at h
          rw [learnLoop_of_some] at h
          injection h with h
          subst h
          refine ⟨[⟨some sol', es.noise, settings.maxIterations⟩], by simp, by simp,
            by simp, ?_⟩
          intro rec hrec
          cases hrec
      | budget =>
          rw [hr] at h
          simp only [outcomeSolution] at h
          rcases ih (i + 1) _ _ _ out h with ⟨new', hrecs, hcount, hlen, hfail⟩
          refine ⟨⟨none, es.noise, settings.maxIterations⟩ :: new', ?_, ?_, ?_, ?_⟩
          · rw [hrecs]; simp
          · rw [hcount]; simp [Nat.add_assoc, Nat.add_comm 1 new'.length]
          · simpa using Nat.succ_le_succ hlen
          · intro rec hrec
            rcases mem_dropLast_cons rec _ new' hrec with h1 | h2
            · rw [h1]
            · exact hfail rec h2
      | exhausted =>
          rw [hr] at h
          simp only [outcomeSolution] at h
          rcases ih (i + 1) _ _ _ out h with ⟨new', hrecs, hcount, hlen, hfail⟩
          refine ⟨⟨none, es.noise, settings.maxIterations⟩ :: new', ?_, ?_, ?_, ?_⟩
          · rw [hrecs]; simp
          · rw [hcount]; simp [Nat.add_assoc, Nat.add_comm 1 new'.length]
          · simpa using Nat.succ_le_succ hlen
          · intro rec hrec
            rcases mem_dropLast_cons rec _ new' hrec with h1 | h2
            · rw [h1]
            · exact hfail rec h2

/-- Claim C4: `EntropyBackTrackSolver::solve` only loops learning attempts
while `SolveSettings::max_iterations` is set — with `max_iterations = None`
it performs zero `solve_single_attempt` calls in the learning loop, returns
attempt count `0`, and runs at most the single final attempt (none at all
when `final_attempt` is not configured); with `max_iterations = Some` it
performs up to `EntropySolveSettings::attempts` attempts, stopping at the
first success (every learning record before the last one is a failure). -/
theorem c4_attempt_loop_requires_max_iterations {σ π ν : Type} [DecidableEq π] [DecidableEq ν]
    [Inhabited π] [Inhabited ν] (P : PuzzleImpl σ π ν) (entropyFn : List ℚ → ℚ)
    (draws : Nat → ℚ) (shuffles : Nat → List ν → List ν) (g : σ → π → List ν)
    (fuel : Nat) (slv : EntropyBackTrackSolver σ π ν) (r : EntropyReport σ π ν)
    (h : entropySolve P entropyFn draws shuffles g fuel slv = some r) :
    (slv.settings.maxIterations = none →
      r.learning = [] ∧ r.count = 0 ∧
      (slv.entropySettings.finalAttempt = none → r.finalRec = none)) ∧
    r.count = r.learning.length ∧
    r.learning.length ≤ slv.entropySettings.attempts ∧
    (∀ rec ∈ r.learning.dropLast, rec.result = none) ∧
    (r.finalRec.isSome = true → slv.entropySettings.finalAttempt.isSome = true) := by
  rw [entropySolve] at h
  cases hmax : slv.settings.maxIterations with
  | none =>
      rw [hmax] at h
      simp only [Option.isSome_none, Bool.false_eq_true, if_false] at h
      cases hfa : slv.entropySettings.finalAttempt with
      | none =>
          rw [hfa] at h
          injection h with h
          subst h
          refine ⟨fun _ => ⟨rfl, rfl, fun _ => rfl⟩, rfl, Nat.zero_le _, ?_, ?_⟩
          · intro rec hrec; cases hrec
          · intro hfr; cases hfr
      | some nm =>
          simp only [hfa] at h
          split at h
          · cases h
          · injection h with h
            subst h
            refine ⟨fun _ => ⟨rfl, rfl, fun hfa' => ?_⟩, rfl, Nat.zero_le _, ?_, ?_⟩
            · exact absurd hfa' (by simp [hfa])
            · intro rec hrec; cases hrec
            · intro _; simp [hfa]
  | some m =>
      rw [hmax] at h
      simp only [Option.isSome_some, if_true] at h
      cases hloop : learnLoop P entropyFn draws shuffles slv.settings slv.entropySettings
          slv.startChoice slv.original g fuel slv.entropySettings.attempts 0
          ⟨slv.state, slv.prevs, slv.choice, slv.weights⟩ 0 none [] with
      | none => rw [hloop] at h; cases h
      | some lr =>
          rw [hloop] at h
          obtain ⟨i1, sol1, c1, cur1, recs1⟩ := lr
          rcases learnLoop_spec P entropyFn draws shuffles slv.settings slv.entropySettings
              slv.startChoice slv.original g fuel slv.entropySettings.attempts 0
              ⟨slv.state, slv.prevs, slv.choice, slv.weights⟩ 0 []
              (i1, sol1, c1, cur1, recs1) hloop with ⟨new, hrecs, hcount, hlen, hfail⟩
          simp only [List.nil_append] at hrecs hcount
          have hnone : slv.settings.maxIterations ≠ none := by rw [hmax]; intro hc; cases hc
          cases sol1 with
          | some s =>
              simp only at h
              injection h with h
              subst h
              refine ⟨fun hn => absurd hn (by simp [hmax]), ?_, ?_, ?_, ?_⟩
              · show i1 = recs1.length
                rw [hcount, hrecs]
                exact Nat.zero_add _
              · show recs1.length ≤ _
                rw [hrecs]; exact hlen
              · show ∀ rec ∈ recs1.dropLast, rec.result = none
                rw [hrecs]; exact hfail
              · intro hfr; cases hfr
          | none =>
              cases hfa : slv.entropySettings.finalAttempt with
              | none =>
                  simp only [hfa] at h
                  injection h with h
                  subst h
                  refine ⟨fun hn => absurd hn (by simp [hmax]), ?_, ?_, ?_, ?_⟩
                  · show i1 = recs1.length
                    rw [hcount, hrecs]
                    exact Nat.zero_add _
                  · show recs1.length ≤ _
                    rw [hrecs]; exact hlen
                  · show ∀ rec ∈ recs1.dropLast, rec.result = none
                    rw [hrecs]; exact hfail
                  · intro hfr; cases hfr
              | some nm =>
                  simp only [hfa] at h
                  split at h
                  · cases h
                  · injection h with h
                    subst h
                    refine ⟨fun hn => absurd hn (by simp [hmax]), ?_, ?_, ?_, ?_⟩
                    · show i1 = recs1.length
                      rw [hcount, hrecs]
                      exact Nat.zero_add _
                    · show recs1.length ≤ _
                      rw [hrecs]; exact hlen
                    · show ∀ rec ∈ recs1.dropLast, rec.result = none
                      rw [hrecs]; exact hfail
                    · intro _; simp [hfa]

/-- Settings for the concrete entropy-solver runs: no simple solving,
learning attempts budgeted at 0 iterations. -/
def eSettingsA : SolveSettings :=
  { SolveSettings.new with solveSimple := false, maxIterations := some 0 }

/-- Entropy settings for the concrete runs: one attempt, noise `1`, a final
attempt capped at 3 iterations. -/
def eESA : EntropySolveSettings := ⟨1, 1, some (some 3)⟩

/-- The report of the concrete entropy-solver run used by the witnesses: the
single learning attempt fails on the 0-iteration budget, the final attempt
(noise forced to 0, budget 3) exhausts, and the original settings stand in
the final solver. -/
def eReportA : EntropyReport Nat Unit Nat :=
  ⟨1, [⟨none, 1, some 0⟩], none, some ⟨none, 0, some 3⟩, none,
    ⟨0, 0, [], [], [], [], eSettingsA, eESA⟩⟩

/-- Witness for C4 at a concrete input: a solver with `max_iterations = 0`
and one configured attempt runs exactly one (failing) learning attempt plus
the final attempt. -/
theorem c4_witness :
    (entropySolve stuckPuzzle (fun _ => 0) (fun _ => 0) (fun _ l => l) (fun _ _ => []) 2
        (EntropyBackTrackSolver.new 0 [] eESA eSettingsA) = some eReportA) ∧
    ((eSettingsA.maxIterations = none →
        eReportA.learning = [] ∧ eReportA.count = 0 ∧
        (eESA.finalAttempt = none → eReportA.finalRec = none)) ∧
      eReportA.count = eReportA.learning.length ∧
      eReportA.learning.length ≤ eESA.attempts ∧
      (∀ rec ∈ eReportA.learning.dropLast, rec.result = none) ∧
      (eReportA.finalRec.isSome = true → eESA.finalAttempt.isSome = true)) :=
  ⟨rfl,
    c4_attempt_loop_requires_max_iterations stuckPuzzle (fun _ => 0) (fun _ => 0)
      (fun _ l => l) (fun _ _ => []) 2 (EntropyBackTrackSolver.new 0 [] eESA eSettingsA)
      eReportA rfl⟩

/-- Claim C8: when the learning loop of `EntropyBackTrackSolver::solve` ends
without a solution and `final_attempt` is configured, exactly one additional
`solve_single_attempt` runs, with `noise` set to `0.0` and `max_iterations`
set to the configured final value, and afterwards the original `noise` and
`max_iterations` stand again in the solver regardless of whether that final
attempt succeeded. -/
theorem c8_final_attempt_settings {σ π ν : Type} [DecidableEq π] [DecidableEq ν]
    [Inhabited π] [Inhabited ν] (P : PuzzleImpl σ π ν) (entropyFn : List ℚ → ℚ)
    (draws : Nat → ℚ) (shuffles : Nat → List ν → List ν) (g : σ → π → List ν)
    (fuel : Nat) (slv : EntropyBackTrackSolver σ π ν) (r : EntropyReport σ π ν)
    (nm : Option Nat)
    (h : entropySolve P entropyFn draws shuffles g fuel slv = some r)
    (hafter : r.afterLoop = none)
    (hfa : slv.entropySettings.finalAttempt = some nm) :
    (∃ frec, r.finalRec = some frec ∧ frec.noiseUsed = 0 ∧ frec.maxUsed = nm ∧
      frec.result = r.solution) ∧
    r.finalSolver.settings.maxIterations = slv.settings.maxIterations ∧
    r.finalSolver.entropySettings.noise = slv.entropySettings.noise := by
  rw [entropySolve] at h
  cases hmax : slv.settings.maxIterations with
  | none =>
      rw [hmax] at h
      simp only [Option.isSome_none, Bool.false_eq_true, if_false] at h
      simp only [hfa] at h
      split at h
      · cases h
      · injection h with h
        subst h
        exact ⟨⟨_, rfl, rfl, rfl, rfl⟩, hmax, rfl⟩
  | some m =>
      rw [hmax] at h
      simp only [Option.isSome_some, if_true] at h
      cases hloop : learnLoop P entropyFn draws shuffles slv.settings slv.entropySettings
          slv.startChoice slv.original g fuel slv.entropySettings.attempts 0
          ⟨slv.state, slv.prevs, slv.choice, slv.weights⟩ 0 none [] with
      | none => rw [hloop] at h; cases h
      | some lr =>
          rw [hloop] at h
          obtain ⟨i1, sol1, c1, cur1, recs1⟩ := lr
          cases sol1 with
          | some s =>
              simp only at h
              injection h with h
              subst h
              cases hafter
          | none =>
              simp only [hfa] at h
              split at h
              · cases h
              · injection h with h
                subst h
                exact ⟨⟨_, rfl, rfl, rfl, rfl⟩, hmax, rfl⟩

/-- Witness for C8 at a concrete input: the failed learning attempt is
followed by the final attempt recorded with noise `0` and budget `some 3`,
and the final solver again carries `max_iterations = some 0` and noise `1`. -/
theorem c8_witness :
    (entropySolve stuckPuzzle (fun _ => 0) (fun _ => 0) (fun _ l => l) (fun _ _ => []) 2
        (EntropyBackTrackSolver.new 0 [] eESA eSettingsA) = some eReportA) ∧
    eReportA.afterLoop = none ∧
    eESA.finalAttempt = some (some 3) ∧
    ((∃ frec, eReportA.finalRec = some frec ∧ frec.noiseUsed = 0 ∧
        frec.maxUsed = some 3 ∧ frec.result = eReportA.solution) ∧
      eReportA.finalSolver.settings.maxIterations = eSettingsA.maxIterations ∧
      eReportA.finalSolver.entropySettings.noise = eESA.noise) :=
  ⟨rfl, rfl, rfl,
    c8_final_attempt_settings stuckPuzzle (fun _ => 0) (fun _ => 0) (fun _ l => l)
      (fun _ _ => []) 2 (EntropyBackTrackSolver.new 0 [] eESA eSettingsA) eReportA
      (some 3) rfl rfl rfl⟩

theorem forall₂_refl_of {α : Type} (R : α → α → Prop) (h : ∀ a, R a a) :
    ∀ l : List α, List.Forall₂ R l l := by
  intro l
  induction l with
  | nil => exact List.Forall₂.nil
  | cons x xs ih => exact List.Forall₂.cons (h x) ih

theorem forall₂_trans_of {α : Type} (R : α → α → Prop)
    (h : ∀ a b c, R a b → R b c → R a c) :
    ∀ {l1 l2 l3 : List α}, List.Forall₂ R l1 l2 → List.Forall₂ R l2 l3 →
      List.Forall₂ R l1 l3 := by
  intro l1 l2 l3 h12
  induction h12 generalizing l3 with
  | nil => intro h23; cases h23; exact List.Forall₂.nil
  | cons hab h12' ih =>
      intro h23
      cases h23 with
      | cons hbc h23' => exact List.Forall₂.cons (h _ _ _ hab hbc) (ih h23')

theorem wle_refl (w : List (List ℚ)) : wle w w :=
  forall₂_refl_of (List.Forall₂ (fun a b => a ≤ b))
    (fun row => forall₂_refl_of (fun a b => a ≤ b) (fun a => le_refl a) row) w

theorem wle_trans {u v w : List (List ℚ)} (huv : wle u v) (hvw : wle v w) : wle u w :=
  forall₂_trans_of (List.Forall₂ (fun a b => a ≤ b))
    (fun _ _ _ h1 h2 =>
      forall₂_trans_of (fun a b => a ≤ b) (fun _ _ _ ha hb => le_trans ha hb) h1 h2)
    huv hvw

theorem bumpAt_bump : ∀ (w : List ℚ) (j : Nat),
    List.Forall₂ (fun a b => b = a ∨ b = a + 1) w (bumpAt w j) := by
  intro w
  induction w with
  | nil => intro j; rw [bumpAt]; exact List.Forall₂.nil
  | cons x xs ih =>
      intro j
      cases j with
      | zero =>
          rw [bumpAt]
          exact List.Forall₂.cons (Or.inr rfl)
            (forall₂_refl_of (fun a b => b = a ∨ b = a + 1) (fun a => Or.inl rfl) xs)
      | succ j =>
          rw [bumpAt]
          exact List.Forall₂.cons (Or.inl rfl) (ih j)

/-- `observe` changes at most one accumulator, and only by adding `1.0`. -/
theorem observeW_bump {π ν : Type} [DecidableEq π] [DecidableEq ν] (pos : π) (val : ν) :
    ∀ (sc : List (π × List ν)) (ws : List (List ℚ)),
      List.Forall₂ (List.Forall₂ (fun a b => b = a ∨ b = a + 1)) ws
        (observeW pos val sc ws) := by
  intro sc
  induction sc with
  | nil =>
      intro ws
      rw [observeW]
      exact forall₂_refl_of (List.Forall₂ (fun a b => b = a ∨ b = a + 1))
        (fun row => forall₂_refl_of (fun a b => b = a ∨ b = a + 1) (fun a => Or.inl rfl) row) ws
  | cons ch sc ih =>
      intro ws
      cases ws with
      | nil => rw [observeW]; exact List.Forall₂.nil
      | cons w ws' =>
          rw [observeW]
          by_cases hp : ch.1 = pos
          · rw [if_pos hp]
            cases hfi : firstIdx val ch.2 with
            | some j =>
                exact List.Forall₂.cons (bumpAt_bump w j)
                  (forall₂_refl_of (List.Forall₂ (fun a b => b = a ∨ b = a + 1))
                    (fun row => forall₂_refl_of (fun a b => b = a ∨ b = a + 1)
                      (fun a => Or.inl rfl) row) ws')
            | none =>
                exact List.Forall₂.cons
                  (forall₂_refl_of (fun a b => b = a ∨ b = a + 1) (fun a => Or.inl rfl) w)
                  (ih ws')
          · rw [if_neg hp]
            exact List.Forall₂.cons
              (forall₂_refl_of (fun a b => b = a ∨ b = a + 1) (fun a => Or.inl rfl) w)
              (ih ws')

theorem observeW_wle {π ν : Type} [DecidableEq π] [DecidableEq ν] (pos : π) (val : ν)
    (sc : List (π × List ν)) (ws : List (List ℚ)) : wle ws (observeW pos val sc ws) :=
  (observeW_bump pos val sc ws).imp
    (fun _ _ hrow => hrow.imp
      (fun a b hab => by rcases hab with h | h
                         · exact le_of_eq h.symm
                         · rw [h]; exact le_of_lt (lt_add_one a)))

theorem ebacktrackLoop_wle {σ π ν : Type} [DecidableEq π] [DecidableEq ν]
    (P : PuzzleImpl σ π ν) (sc : List (π × List ν)) :
    ∀ (choice : List (π × List ν)) (s : σ) (prevs : List (π × ν × Bool))
      (ws : List (List ℚ)),
      (match ebacktrackLoop P sc s prevs ws choice with
       | .failed _ _ ws' _ => wle ws ws'
       | .next _ _ ws' _ => wle ws ws') := by
  intro choice
  induction choice with
  | nil => intro s prevs ws; exact wle_refl ws
  | cons frame rest ih =>
      intro s prevs ws
      obtain ⟨pos, cands⟩ := frame
      cases cands with
      | cons newVal cands' =>
          show wle ws (observeW pos newVal sc ws)
          exact observeW_wle pos newVal sc ws
      | nil =>
          rw [ebacktrackLoop]
          cases hpe : prevs.isEmpty with
          | true => rw [if_pos rfl]; exact wle_refl ws
          | false =>
              rw [if_neg Bool.false_ne_true]
              exact ih _ _ ws

theorem eStep_wle {σ π ν : Type} [DecidableEq π] [DecidableEq ν] [Inhabited π] [Inhabited ν]
    (P : PuzzleImpl σ π ν) (entropyFn : List ℚ → ℚ) (draws : Nat → ℚ)
    (shuffles : Nat → List ν → List ν) (settings : SolveSettings)
    (es : EntropySolveSettings) (sc : List (π × List ν)) (original : σ)
    (g : σ → π → List ν) (iters cur : Nat) (c : ECore σ π ν) :
    (match eStep P entropyFn draws shuffles settings es sc original g iters cur c with
     | .inl r => wle c.weights r.2.1.weights
     | .inr cc => wle c.weights cc.1.weights) := by
  rw [eStep]
  generalize (if settings.solveSimple = true then applySimple P c.state c.prevs
    else (c.state, c.prevs)) = sp
  cases hex : exceeded settings.maxIterations iters with
  | true =>
      simp only [if_true]
      exact wle_refl _
  | false =>
      simp only [Bool.false_eq_true, if_false]
      cases hsolved : P.isSolved sp.1 with
      | true =>
          simp only [if_true]
          exact wle_refl _
      | false =>
          simp only [Bool.false_eq_true, if_false]
          cases hme : minEntropy entropyFn g sc sp.1 c.weights with
          | none =>
              simp only
              cases hbt : ebacktrackLoop P sc sp.1 sp.2 c.weights c.choice with
              | failed s' prevs' ws' ch' =>
                  have h := ebacktrackLoop_wle P sc c.choice sp.1 sp.2 c.weights
                  rw [hbt] at h
                  exact h
              | next s' prevs' ws' ch' =>
                  have h := ebacktrackLoop_wle P sc c.choice sp.1 sp.2 c.weights
                  rw [hbt] at h
                  exact h
          | some ix =>
              simp only
              cases hrev : (if draws cur < es.noise then shuffles cur (g sp.1 ix.2)
                  else projectCandidates (sc.getD ix.1 default).2 (c.weights.getD ix.1 [])
                    (g sp.1 ix.2)).reverse with
              | nil =>
                  simp only
                  cases hbt : ebacktrackLoop P sc sp.1 sp.2 c.weights c.choice with
                  | failed s' prevs' ws' ch' =>
                      have h := ebacktrackLoop_wle P sc c.choice sp.1 sp.2 c.weights
                      rw [hbt] at h
                      exact h
                  | next s' prevs' ws' ch' =>
                      have h := ebacktrackLoop_wle P sc c.choice sp.1 sp.2 c.weights
                      rw [hbt] at h
                      exact h
              | cons v rest =>
                  simp only
                  exact observeW_wle ix.2 v sc c.weights

theorem solveSingleAttempt_wle {σ π ν : Type} [DecidableEq π] [DecidableEq ν] [Inhabited π]
    [Inhabited ν] (P : PuzzleImpl σ π ν) (entropyFn : List ℚ → ℚ) (draws : Nat → ℚ)
    (shuffles : Nat → List ν → List ν) (settings : SolveSettings)
    (es : EntropySolveSettings) (sc : List (π × List ν)) (original : σ)
    (g : σ → π → List ν) :
    ∀ (fuel iters cur : Nat) (c : ECore σ π ν),
      wle c.weights
        ((solveSingleAttempt P entropyFn draws shuffles settings es sc original g
          fuel iters cur c).2.1).weights := by
  intro fuel
  induction fuel with
  | zero => intro iters cur c; exact wle_refl _
  | succ k ih =>
      intro iters cur c
      rw [solveSingleAttempt]
      have hstep := eStep_wle P entropyFn draws shuffles settings es sc original g
        (iters + 1) cur c
      cases hres : eStep P entropyFn draws shuffles settings es sc original g
          (iters + 1) cur c with
      | inl r =>
          rw [hres] at hstep
          exact hstep
      | inr cc =>
          rw [hres] at hstep
          exact wle_trans hstep (ih (iters + 1) cc.2 cc.1)

theorem learnLoop_wle {σ π ν : Type} [DecidableEq π] [DecidableEq ν] [Inhabited π]
    [Inhabited ν] (P : PuzzleImpl σ π ν) (entropyFn : List ℚ → ℚ) (draws : Nat → ℚ)
    (shuffles : Nat → List ν → List ν) (settings : SolveSettings)
    (es : EntropySolveSettings) (sc : List (π × List ν)) (original : σ)
    (g : σ → π → List ν) (fuel : Nat) :
    ∀ (k i : Nat) (c : ECore σ π ν) (cur : Nat) (sol : Option (Solution σ))
      (recs : List (AttemptRec σ))
      (out : Nat × Option (Solution σ) × ECore σ π ν × Nat × List (AttemptRec σ)),
      learnLoop P entropyFn draws shuffles settings es sc original g fuel k i c cur
        sol recs = some out →
      wle c.weights out.2.2.1.weights := by
  intro k
  induction k with
  | zero =>
      intro i c cur sol recs out h
      rw [learnLoop] at h
      injection h with h
      subst h
      exact wle_refl _
  | succ k ih =>
      intro i c cur sol recs out h
      cases sol with
      | some s =>
          rw [learnLoop] at h
          injection h with h
          subst h
          exact wle_refl _
      | none =>
          rw [learnLoop] at h
          have hatt := solveSingleAttempt_wle P entropyFn draws shuffles settings es sc
            original g fuel 0 cur c
          cases hr : (solveSingleAttempt P entropyFn draws shuffles settings es sc original g
              fuel 0 cur c).1 with
          | outOfFuel => rw [hr] at h; cases h
          | solution sol' =>
              rw [hr] at h
              exact wle_trans hatt (ih _ _ _ _ _ out h)
          | budget =>
              rw [hr] at h
              exact wle_trans hatt (ih _ _ _ _ _ out h)
          | exhausted =>
              rw [hr] at h
              exact wle_trans hatt (ih _ _ _ _ _ out h)

/-- Claim C9: every weight accumulator of `EntropyBackTrackSolver` starts at
`1.0` (one per candidate value of every `start_choice` entry), `observe`
changes at most one accumulator and only by adding `1.0` (so in particular
never decreases any), a whole `solve_single_attempt` — whose only weight
updates are the `observe` calls on `Guess` and `Try`; `solve_simple` logging
and the undo loops never touch the table — leaves every weight at least as
large as before, and the same holds across all attempts of `solve`. -/
theorem c9_weights_invariant {σ π ν : Type} [DecidableEq π] [DecidableEq ν] [Inhabited π]
    [Inhabited ν] :
    (∀ (p : σ) (sc : List (π × List ν)) (es : EntropySolveSettings)
        (ss : SolveSettings),
        ((EntropyBackTrackSolver.new p sc es ss : EntropyBackTrackSolver σ π ν).weights.all
          (fun row => row.all (fun w => decide (w = 1)))) = true) ∧
    (∀ (pos : π) (val : ν) (sc : List (π × List ν)) (ws : List (List ℚ)),
        List.Forall₂ (List.Forall₂ (fun a b => b = a ∨ b = a + 1)) ws
          (observeW pos val sc ws)) ∧
    (∀ (P : PuzzleImpl σ π ν) (entropyFn : List ℚ → ℚ) (draws : Nat → ℚ)
        (shuffles : Nat → List ν → List ν) (settings : SolveSettings)
        (es : EntropySolveSettings) (sc : List (π × List ν)) (original : σ)
        (g : σ → π → List ν) (fuel iters cur : Nat) (c : ECore σ π ν),
        wle c.weights
          ((solveSingleAttempt P entropyFn draws shuffles settings es sc original g
            fuel iters cur c).2.1).weights) ∧
    (∀ (P : PuzzleImpl σ π ν) (entropyFn : List ℚ → ℚ) (draws : Nat → ℚ)
        (shuffles : Nat → List ν → List ν) (g : σ → π → List ν) (fuel : Nat)
        (slv : EntropyBackTrackSolver σ π ν) (r : EntropyReport σ π ν),
        entropySolve P entropyFn draws shuffles g fuel slv = some r →
        wle slv.weights r.finalSolver.weights) := by
  refine ⟨?_, observeW_bump, solveSingleAttempt_wle, ?_⟩
  · intro p sc es ss
    rw [List.all_eq_true]
    intro row hrow
    simp only [EntropyBackTrackSolver.new] at hrow
    rcases List.mem_map.mp hrow with ⟨n, _, rfl⟩
    rw [List.all_eq_true]
    intro w hw
    simp [List.eq_of_mem_replicate hw]
  · intro P entropyFn draws shuffles g fuel slv r h
    rw [entropySolve] at h
    cases hmaxI : slv.settings.maxIterations.isSome with
    | false =>
        rw [hmaxI] at h
        simp only [Bool.false_eq_true, if_false] at h
        cases hfa : slv.entropySettings.finalAttempt with
        | none =>
            simp only [hfa] at h
            injection h with h
            subst h
            exact wle_refl _
        | some nm =>
            simp only [hfa] at h
            split at h
            · cases h
            · injection h with h
              subst h
              exact solveSingleAttempt_wle P entropyFn draws shuffles _ _ _ _ g fuel 0 0
                ⟨slv.state, slv.prevs, slv.choice, slv.weights⟩
    | true =>
        rw [hmaxI] at h
        simp only [if_true] at h
        cases hloop : learnLoop P entropyFn draws shuffles slv.settings slv.entropySettings
            slv.startChoice slv.original g fuel slv.entropySettings.attempts 0
            ⟨slv.state, slv.prevs, slv.choice, slv.weights⟩ 0 none [] with
        | none => rw [hloop] at h; cases h
        | some lr =>
            rw [hloop] at h
            obtain ⟨i1, sol1, c1, cur1, recs1⟩ := lr
            have hlw : wle slv.weights c1.weights :=
              learnLoop_wle P entropyFn draws shuffles slv.settings slv.entropySettings
                slv.startChoice slv.original g fuel slv.entropySettings.attempts 0
                ⟨slv.state, slv.prevs, slv.choice, slv.weights⟩ 0 none []
                (i1, sol1, c1, cur1, recs1) hloop
            cases sol1 with
            | some s =>
                simp only at h
                injection h with h
                subst h
                exact hlw
            | none =>
                cases hfa : slv.entropySettings.finalAttempt with
                | none =>
                    simp only [hfa] at h
                    injection h with h
                    subst h
                    exact hlw
                | some nm =>
                    simp only [hfa] at h
                    split at h
                    · cases h
                    · injection h with h
                      subst h
                      exact wle_trans hlw
                        (solveSingleAttempt_wle P entropyFn draws shuffles _ _ _ _ g fuel 0
                          cur1 c1)

/-- Settings for the concrete weight-learning run: no simple solving,
learning attempts budgeted at 2 iterations. -/
def eSettingsB : SolveSettings :=
  { SolveSettings.new with solveSimple := false, maxIterations := some 2 }

/-- Entropy settings for the concrete weight-learning run: one attempt, no
noise, no final attempt. -/
def eESB : EntropySolveSettings := ⟨1, 0, none⟩

/-- Report of the concrete weight-learning run: the attempt guesses value
`1` at the single position (bumping its weight from `1` to `2`), gets stuck,
backtracks to exhaustion, and the learned weights `[[2, 1]]` survive in the
final solver. -/
def eReportB : EntropyReport Nat Unit Nat :=
  ⟨1, [⟨none, 0, some 2⟩], none, none, none,
    ⟨0, 0, [], [], [((), [1, 2])], [[1 + 1, 1]], eSettingsB, eESB⟩⟩

/-- Witness for C9 at a concrete input: the solver starts with weights
`[[1, 1]]` and ends the run with the pointwise-larger `[[2, 1]]`. -/
theorem c9_witness :
    (entropySolve stuckPuzzle (fun _ => 0) (fun _ => 0) (fun _ l => l)
        (fun s _ => if s == 0 then [1] else []) 4
        (EntropyBackTrackSolver.new 0 [((), [1, 2])] eESB eSettingsB) = some eReportB) ∧
    wle (EntropyBackTrackSolver.new (σ := Nat) (π := Unit) (ν := Nat) 0 [((), [1, 2])]
          eESB eSettingsB).weights
      eReportB.finalSolver.weights :=
  by
  have h : entropySolve stuckPuzzle (fun _ => 0) (fun _ => 0) (fun _ l => l)
      (fun s _ => if s == 0 then [1] else []) 4
      (EntropyBackTrackSolver.new 0 [((), [1, 2])] eESB eSettingsB) = some eReportB := rfl
  exact ⟨h,
    c9_weights_invariant.2.2.2 stuckPuzzle (fun _ => 0) (fun _ => 0) (fun _ l => l)
      (fun s _ => if s == 0 then [1] else []) 4
      (EntropyBackTrackSolver.new 0 [((), [1, 2])] eESB eSettingsB) eReportB h⟩
